import Mathlib

/-!
Shallow embedding of the GoJo-Downloader metadata pipeline (`src/app.py`):
the size estimator `estimate_video_size`, the human-readable size
formatter `format_size`, the filename sanitizer `sanitize_filename`, and
the per-resolution format reduction performed inside the `get_info`
handler.  Python numbers are modelled as exact rationals, optional values
as `Option`, and the one reachable `TypeError` as `Except`.
-/

attribute [local semireducible] Rat.mul Rat.add Rat.sub Rat.inv

instance {ε α : Type} [DecidableEq ε] [DecidableEq α] : DecidableEq (Except ε α) :=
  fun a b =>
    match a, b with
    | Except.ok x, Except.ok y =>
      if h : x = y then isTrue (by rw [h]) else isFalse (fun hc => h (Except.ok.inj hc))
    | Except.error x, Except.error y =>
      if h : x = y then isTrue (by rw [h]) else isFalse (fun hc => h (Except.error.inj hc))
    | Except.ok x, Except.error y => isFalse (fun hc => Except.noConfusion hc)
    | Except.error x, Except.ok y => isFalse (fun hc => Except.noConfusion hc)

/-- Python `int(q)` on a rational: truncation toward zero. -/
def pytrunc (q : ℚ) : ℤ := Int.tdiv q.num q.den

/-- Mathematical floor of a rational, by flooring division. -/
def ratFloorZ (q : ℚ) : ℤ := Int.fdiv q.num q.den

/-- Python `round(q)` to an integer: round half to even (banker's rounding). -/
def pyround (q : ℚ) : ℤ :=
  let f := ratFloorZ q
  if q - (f : ℚ) < 1 / 2 then f
  else if (1 : ℚ) / 2 < q - (f : ℚ) then f + 1
  else if f % 2 = 0 then f else f + 1

/-- Rendering of a nonnegative rational with one decimal digit, as Python's
format specifier writes a float with one decimal place. -/
def fmt1 (q : ℚ) : String :=
  let t := pyround (q * 10)
  toString (t / 10) ++ "." ++ toString (t % 10)

/-- Function `format_size` from `src/app.py`: bytes to a human readable string, `none`
for a falsy or non-positive input. -/
def format_size (bytes_size : Option ℤ) : Option String :=
  match bytes_size with
  | none => none
  | some n =>
    if n = 0 ∨ n ≤ 0 then none
    else if 1024 * 1024 * 1024 ≤ n then
      some (fmt1 ((n : ℚ) / (1024 * 1024 * 1024)) ++ " GB")
    else if 1024 * 1024 ≤ n then
      some (fmt1 ((n : ℚ) / (1024 * 1024)) ++ " MB")
    else if 1024 ≤ n then
      some (fmt1 ((n : ℚ) / 1024) ++ " KB")
    else some (toString n ++ " B")

/-- The fixed resolution-to-bitrate table of `estimate_video_size`, in its
declaration order. -/
def bitrate_map : List (ℤ × ℚ) :=
  [(2160, 20000), (1440, 12000), (1080, 5000), (720, 2500),
   (480, 1500), (360, 800), (240, 400), (144, 200)]

/-- The keys of `bitrate_map`, in declaration order. -/
def bm_keys : List ℤ := bitrate_map.map Prod.fst

/-- Python `min(keys, key=...)`: the first element attaining the least key. -/
def pyMinKey (key : ℤ → ℤ) : List ℤ → Option ℤ
  | [] => none
  | x :: xs => some (xs.foldl (fun b a => if key a < key b then a else b) x)

/-- The table resolution chosen by `estimate_video_size` for a given height:
`min(bitrate_map.keys(), key=lambda x: abs(x - height))`. -/
def closestKey (h : ℤ) : ℤ := (pyMinKey (fun x => |x - h|) bm_keys).getD 0

/-- The assumed bitrate looked up for a height via `closestKey`. -/
def tableBitrate (h : ℤ) : ℚ := ((bitrate_map.lookup (closestKey h)).getD 0)

/-- Function `estimate_video_size` from `src/app.py`.  A falsy duration returns `none`;
a positive bitrate uses `int(tbr * 1000 / 8 * duration)`; otherwise the table
is consulted, which evaluates `abs(x - height)` and hence raises a `TypeError`
(modelled as `Except.error`) when `height` is absent. -/
def estimate_video_size (duration : Option ℚ) (height : Option ℤ) (tbr : Option ℚ) :
    Except Unit (Option ℤ) :=
  match duration with
  | none => Except.ok none
  | some d =>
    if d = 0 then Except.ok none
    else if 0 < tbr.getD 0 then
      Except.ok (some (pytrunc (tbr.getD 0 * 1000 / 8 * d)))
    else
      match height with
      | none => Except.error ()
      | some h => Except.ok (some (pytrunc (tableBitrate h * 1000 / 8 * d)))

/-- Input record for one raw format descriptor, as read by `get_info` from
the extraction library's `formats` list.  Absent dictionary keys and
present-but-`None` values are both modelled as `none`. -/
structure FormatCandidate where
  height : Option ℤ
  vcodec : Option String
  acodec : Option String
  filesize : Option ℤ
  filesize_approx : Option ℤ
  tbr : Option ℚ
  format_id : Option String
  ext : Option String
deriving DecidableEq

/-- Python truthiness of an optional string: present and nonempty. -/
def truthyS (s : Option String) : Bool :=
  match s with
  | none => false
  | some t => t ≠ ""

/-- The filter of `get_info`:
`has_video and has_audio and height` where
`has_video = f.get('vcodec') and f.get('vcodec') != 'none'` and similarly
for audio, and `height` must be truthy. -/
def qualifies (f : FormatCandidate) : Bool :=
  truthyS f.vcodec && decide (f.vcodec ≠ some "none") &&
  truthyS f.acodec && decide (f.acodec ≠ some "none") &&
  decide (f.height.getD 0 ≠ 0)

/-- Python `a or b` on optional byte counts (`f.get('filesize') or
f.get('filesize_approx')`): the first operand unless it is falsy. -/
def pyorInt (a b : Option ℤ) : Option ℤ :=
  match a with
  | some n => if n = 0 then b else some n
  | none => b

/-- The value stored in `seen_res[height]` for one qualifying candidate. -/
structure Entry where
  format_id : Option String
  height : ℤ
  ext : String
  filesize : Option ℤ
  tbr : ℚ
deriving DecidableEq

/-- Runs the size estimator and keeps the `ok` payload.  Every call site in
`get_info` passes a present height, for which the estimator cannot raise. -/
def estRun (duration : Option ℚ) (height : Option ℤ) (tbr : Option ℚ) : Option ℤ :=
  match estimate_video_size duration height tbr with
  | Except.ok v => v
  | Except.error _ => none

/-- Builds the `seen_res` entry for one qualifying candidate: byte size from
`filesize or filesize_approx`, else (when the duration is positive) from the
estimator; `tbr` defaulted to `0`; `ext` defaulted to `"mp4"`. -/
def candEntry (d : ℚ) (f : FormatCandidate) : Entry :=
  let height := f.height.getD 0
  let tbr := f.tbr.getD 0
  let fs0 := pyorInt f.filesize f.filesize_approx
  let fs := if (fs0 = none ∨ fs0 = some 0) ∧ 0 < d then
      estRun (some d) (some height) (some tbr)
    else fs0
  ⟨f.format_id, height, f.ext.getD "mp4", fs, tbr⟩

/-- Lookup of `seen_res[height]`: the first stored entry with the given height. -/
def lookupH (seen : List Entry) (h : ℤ) : Option Entry :=
  seen.find? (fun e => decide (e.height = h))

/-- One update of `seen_res`: insert the entry when its height is new,
replace the stored entry when the new bitrate is strictly greater. -/
def step (seen : List Entry) (e : Entry) : List Entry :=
  match lookupH seen e.height with
  | none => seen ++ [e]
  | some old =>
    if old.tbr < e.tbr then
      seen.map (fun x => if x.height = e.height then e else x)
    else seen

/-- One iteration of the `for f in all_formats` loop. -/
def stepQ (d : ℚ) (acc : List Entry) (f : FormatCandidate) : List Entry :=
  if qualifies f then step acc (candEntry d f) else acc

/-- The `seen_res` mapping after the whole candidate loop of `get_info`. -/
def seenOf (cs : List FormatCandidate) (d : ℚ) : List Entry :=
  cs.foldl (stepQ d) []

/-- One entry of the JSON `formats` list produced by `get_info`. -/
structure MediaOffer where
  type : String
  label : String
  ext : String
  size : Option String
  format_id : Option String
  height : Option ℤ
deriving DecidableEq

/-- Python `a or b` where `a` is an optional string and `b` a string:
the first operand unless it is falsy. -/
def pyorStr (a : Option String) (b : String) : String :=
  match a with
  | some s => if s = "" then b else s
  | none => b

/-- The video offer emitted for one surviving `seen_res` entry. -/
def videoOffer (e : Entry) : MediaOffer :=
  ⟨"video", toString e.height ++ "p", e.ext,
    some (pyorStr (format_size e.filesize) ("~" ++ toString e.height ++ "p")),
    e.format_id, some e.height⟩

/-- The audio offer always appended last by `get_info`. -/
def audioOffer (d : ℚ) : MediaOffer :=
  ⟨"audio", "MP3 Audio", "mp3",
    if 0 < d then format_size (some (pytrunc (192 * 1000 / 8 * d)))
    else some "High Quality",
    some "bestaudio", none⟩

/-- Descending sort of the height keys, as `sorted(keys, reverse=True)` does. -/
def sortDesc (l : List ℤ) : List ℤ :=
  (List.insertionSort (fun a b => a ≤ b) l).reverse

/-- The video offers of `get_info`, one per surviving height, descending. -/
def offersOf (seen : List Entry) : List MediaOffer :=
  (sortDesc (seen.map Entry.height)).filterMap
    (fun h => (lookupH seen h).map videoOffer)

/-- The whole `formats` list computed by `get_info` from the raw candidate
list and the duration: the reduced video offers, then the audio offer. -/
def reduce (cs : List FormatCandidate) (d : ℚ) : List MediaOffer :=
  offersOf (seenOf cs d) ++ [audioOffer d]

/-- Characters removed by `sanitize_filename`, in the order of its pattern. -/
def invalidChars : List Char := ['<', '>', ':', '"', '/', '\\', '|', '?', '*']

/-- Function `sanitize_filename` from `src/app.py`, on strings as character
lists: strip the nine reserved characters, then truncate to 100 characters. -/
def sanitize_filename (s : List Char) : List Char :=
  (s.filter (fun c => !(invalidChars.contains c))).take 100

/-- The `filename` field returned by the `download` handler: the sanitized
title followed by the extension (".mp3", or the downloaded file's suffix). -/
def download_filename (title ext : List Char) : List Char :=
  sanitize_filename title ++ ext

/-- The entries that the loop would build for the qualifying candidates of a
given height, in candidate order. -/
def entriesAt (cs : List FormatCandidate) (d : ℚ) (h : ℤ) : List Entry :=
  ((cs.filter qualifies).map (candEntry d)).filter (fun e => decide (e.height = h))

/-- The first entry of a list attaining the maximal bitrate, replacing only on
a strictly greater bitrate, as the `seen_res` update does. -/
def pickFirstMax : List Entry → Option Entry
  | [] => none
  | e :: es => some (es.foldl (fun b a => if b.tbr < a.tbr then a else b) e)

/-- The qualification condition exactly as the specification words it: both
codec fields present and not the literal string "none", and a present height. -/
def claimQualifies (f : FormatCandidate) : Prop :=
  f.vcodec ≠ none ∧ f.vcodec ≠ some "none" ∧
  f.acodec ≠ none ∧ f.acodec ≠ some "none" ∧ f.height ≠ none

/-- The byte-size resolution chain exactly as the claim words it:
`fileSizeExact` if present, else `fileSizeApprox` if present, else (only for a
positive duration) the estimator. -/
def resolveClaim (d : ℚ) (f : FormatCandidate) : Option ℤ :=
  match f.filesize with
  | some n => some n
  | none =>
    match f.filesize_approx with
    | some n => some n
    | none =>
      if 0 < d then estRun (some d) (some (f.height.getD 0)) (some (f.tbr.getD 0))
      else none

/-- The byte-size resolution chain as the code performs it, in the amended
claim's words: `filesize` if present and nonzero, else `filesize_approx` if
present and nonzero, else the estimator for a positive duration, else
whatever falsy leftover the `or`-chain produced (`none` or a zero). -/
def resolveAmended (d : ℚ) (f : FormatCandidate) : Option ℤ :=
  if f.filesize ≠ none ∧ f.filesize ≠ some 0 then f.filesize
  else if f.filesize_approx ≠ none ∧ f.filesize_approx ≠ some 0 then f.filesize_approx
  else if 0 < d then estRun (some d) (some (f.height.getD 0)) (some (f.tbr.getD 0))
  else pyorInt f.filesize f.filesize_approx

/-- Concrete candidate at height 1080 with bitrate 3000, from the
specification's reduction example. -/
def cw1 : FormatCandidate :=
  ⟨some 1080, some "avc1", some "mp4a", some 1000, none, some 3000, some "f1", some "mp4"⟩

/-- Concrete candidate at height 1080 with bitrate 5000, from the
specification's reduction example. -/
def cw2 : FormatCandidate :=
  ⟨some 1080, some "avc1", some "mp4a", some 2000, none, some 5000, some "f2", some "mp4"⟩

/-- The entry the loop stores for `cw2`. -/
def ew2 : Entry := ⟨some "f2", 1080, "mp4", some 2000, 5000⟩

/-- A candidate with `vcodec="none"` but a present height, for the exclusion
example. -/
def fbad : FormatCandidate :=
  ⟨some 720, some "none", some "mp4a", none, none, some 100, some "5", some "mp4"⟩

/-- A candidate with a present but zero exact size and a nonzero approximate
size: the code's `or`-chain skips the zero, the claim's presence-based chain
does not. -/
def fcex : FormatCandidate :=
  ⟨some 1080, some "avc1", some "mp4a", some 0, some 1536, none, some "22", some "mp4"⟩

/-! Helper lemmas about Python-style folds and the `seen_res` update. -/

/-- Python `min(..., key=...)` as a left fold keeps the first element
attaining the least key: the result splits the list with strictly larger
keys before it and no smaller key anywhere. -/
theorem pyfold_min_first {α β : Type} [LinearOrder β] (key : α → β) (xs : List α) :
    ∀ x r : α, xs.foldl (fun b a => if key a < key b then a else b) x = r →
      ∃ l₁ l₂, x :: xs = l₁ ++ r :: l₂ ∧ (∀ y ∈ l₁, key r < key y) ∧
        ∀ y ∈ x :: xs, key r ≤ key y := by
  induction xs with
  | nil =>
    intro x r hr
    simp only [List.foldl_nil] at hr
    subst hr
    exact ⟨[], [], rfl, by simp, by simp⟩
  | cons a t ih =>
    intro x r hr
    simp only [List.foldl_cons] at hr
    by_cases hc : key a < key x
    · rw [if_pos hc] at hr
      obtain ⟨l₁, l₂, hsplit, hpre, hall⟩ := ih a r hr
      refine ⟨x :: l₁, l₂, by rw [List.cons_append, ← hsplit], ?_, ?_⟩
      · intro y hy
        rcases List.mem_cons.1 hy with hy | hy
        · subst hy
          exact lt_of_le_of_lt (hall a (List.mem_cons_self a t)) hc
        · exact hpre y hy
      · intro y hy
        rcases List.mem_cons.1 hy with hy | hy
        · subst hy
          exact le_of_lt (lt_of_le_of_lt (hall a (List.mem_cons_self a t)) hc)
        · exact hall y hy
    · rw [if_neg hc] at hr
      obtain ⟨l₁, l₂, hsplit, hpre, hall⟩ := ih x r hr
      cases l₁ with
      | nil =>
        simp only [List.nil_append] at hsplit
        injection hsplit with hx ht
        subst hx
        subst ht
        refine ⟨[], a :: t, rfl, by simp, ?_⟩
        intro y hy
        rcases List.mem_cons.1 hy with hy | hy
        · subst hy; exact le_refl _
        rcases List.mem_cons.1 hy with hy | hy
        · subst hy; exact le_of_not_lt hc
        · exact hall y (List.mem_cons_of_mem _ hy)
      | cons x0 l1t =>
        rw [List.cons_append, List.cons.injEq] at hsplit
        obtain ⟨hx, ht⟩ := hsplit
        rw [← hx] at hpre
        refine ⟨x :: a :: l1t, l₂, ?_, ?_, ?_⟩
        · rw [List.cons_append, List.cons_append, ← ht]
        · intro y hy
          rcases List.mem_cons.1 hy with hy | hy
          · rw [hy]; exact hpre x (List.mem_cons_self _ _)
          rcases List.mem_cons.1 hy with hy | hy
          · rw [hy]
            exact lt_of_lt_of_le (hpre x (List.mem_cons_self _ _)) (le_of_not_lt hc)
          · exact hpre y (List.mem_cons_of_mem _ hy)
        · intro y hy
          rcases List.mem_cons.1 hy with hy | hy
          · rw [hy]; exact hall x (List.mem_cons_self _ _)
          rcases List.mem_cons.1 hy with hy | hy
          · rw [hy]
            exact le_trans (hall x (List.mem_cons_self _ _)) (le_of_not_lt hc)
          · exact hall y (List.mem_cons_of_mem _ hy)

/-- The dual fold, as `seen_res` replacement does it (replace only on a
strictly greater key), keeps the first element attaining the greatest key. -/
theorem pyfold_max_first {α β : Type} [LinearOrder β] (key : α → β) (xs : List α) :
    ∀ x r : α, xs.foldl (fun b a => if key b < key a then a else b) x = r →
      ∃ l₁ l₂, x :: xs = l₁ ++ r :: l₂ ∧ (∀ y ∈ l₁, key y < key r) ∧
        ∀ y ∈ x :: xs, key y ≤ key r := by
  induction xs with
  | nil =>
    intro x r hr
    simp only [List.foldl_nil] at hr
    subst hr
    exact ⟨[], [], rfl, by simp, by simp⟩
  | cons a t ih =>
    intro x r hr
    simp only [List.foldl_cons] at hr
    by_cases hc : key x < key a
    · rw [if_pos hc] at hr
      obtain ⟨l₁, l₂, hsplit, hpre, hall⟩ := ih a r hr
      refine ⟨x :: l₁, l₂, by rw [List.cons_append, ← hsplit], ?_, ?_⟩
      · intro y hy
        rcases List.mem_cons.1 hy with hy | hy
        · subst hy
          exact lt_of_lt_of_le hc (hall a (List.mem_cons_self a t))
        · exact hpre y hy
      · intro y hy
        rcases List.mem_cons.1 hy with hy | hy
        · subst hy
          exact le_of_lt (lt_of_lt_of_le hc (hall a (List.mem_cons_self a t)))
        · exact hall y hy
    · rw [if_neg hc] at hr
      obtain ⟨l₁, l₂, hsplit, hpre, hall⟩ := ih x r hr
      cases l₁ with
      | nil =>
        simp only [List.nil_append] at hsplit
        injection hsplit with hx ht
        subst hx
        subst ht
        refine ⟨[], a :: t, rfl, by simp, ?_⟩
        intro y hy
        rcases List.mem_cons.1 hy with hy | hy
        · subst hy; exact le_refl _
        rcases List.mem_cons.1 hy with hy | hy
        · subst hy; exact le_of_not_lt hc
        · exact hall y (List.mem_cons_of_mem _ hy)
      | cons x0 l1t =>
        rw [List.cons_append, List.cons.injEq] at hsplit
        obtain ⟨hx, ht⟩ := hsplit
        rw [← hx] at hpre
        refine ⟨x :: a :: l1t, l₂, ?_, ?_, ?_⟩
        · rw [List.cons_append, List.cons_append, ← ht]
        · intro y hy
          rcases List.mem_cons.1 hy with hy | hy
          · rw [hy]; exact hpre x (List.mem_cons_self _ _)
          rcases List.mem_cons.1 hy with hy | hy
          · rw [hy]
            exact lt_of_le_of_lt (le_of_not_lt hc) (hpre x (List.mem_cons_self _ _))
          · exact hpre y (List.mem_cons_of_mem _ hy)
        · intro y hy
          rcases List.mem_cons.1 hy with hy | hy
          · rw [hy]; exact hall x (List.mem_cons_self _ _)
          rcases List.mem_cons.1 hy with hy | hy
          · rw [hy]
            exact le_trans (le_of_not_lt hc) (hall x (List.mem_cons_self _ _))
          · exact hall y (List.mem_cons_of_mem _ hy)

/-- Unfolding `lookupH` on a cons cell. -/
theorem lookupH_cons (e : Entry) (t : List Entry) (h : ℤ) :
    lookupH (e :: t) h = if e.height = h then some e else lookupH t h := by
  by_cases hc : e.height = h
  · rw [if_pos hc]
    unfold lookupH
    exact List.find?_cons_of_pos _ (by simp [hc])
  · rw [if_neg hc]
    unfold lookupH
    exact List.find?_cons_of_neg _ (by simp [hc])

/-- Appending a fresh entry does not change a successful lookup. -/
theorem lookupH_append_of_some (seen : List Entry) (e x : Entry) (h : ℤ)
    (hs : lookupH seen h = some x) : lookupH (seen ++ [e]) h = some x := by
  induction seen with
  | nil => rw [lookupH] at hs; simp at hs
  | cons a t ih =>
    rw [lookupH_cons] at hs
    rw [List.cons_append, lookupH_cons]
    by_cases hc : a.height = h
    · rw [if_pos hc] at hs ⊢; exact hs
    · rw [if_neg hc] at hs ⊢; exact ih hs

/-- Appending an entry after a failed lookup finds exactly that entry. -/
theorem lookupH_append_of_none (seen : List Entry) (e : Entry) (h : ℤ)
    (hn : lookupH seen h = none) :
    lookupH (seen ++ [e]) h = if e.height = h then some e else none := by
  induction seen with
  | nil => simp only [List.nil_append]; rw [lookupH_cons]; rfl
  | cons a t ih =>
    rw [lookupH_cons] at hn
    rw [List.cons_append, lookupH_cons]
    by_cases hc : a.height = h
    · rw [if_pos hc] at hn; cases hn
    · rw [if_neg hc] at hn ⊢; exact ih hn

/-- Lookup commutes with a map that preserves heights. -/
theorem lookupH_map_height_inv (f : Entry → Entry) (hf : ∀ x, (f x).height = x.height)
    (l : List Entry) (h : ℤ) : lookupH (l.map f) h = (lookupH l h).map f := by
  induction l with
  | nil => rfl
  | cons a t ih =>
    rw [List.map_cons, lookupH_cons, lookupH_cons]
    by_cases hc : a.height = h
    · rw [if_pos (by rw [hf a]; exact hc), if_pos hc]; rfl
    · rw [if_neg (by rw [hf a]; exact hc), if_neg hc, ih]

/-- The replacement map of `step` preserves heights. -/
theorem replace_height_inv (e : Entry) :
    ∀ x : Entry, ((fun x => if x.height = e.height then e else x) x).height = x.height := by
  intro x
  by_cases hx : x.height = e.height
  · simp [hx]
  · simp [hx]

/-- A successful `lookupH` returns an entry with the looked-up height. -/
theorem lookupH_height (seen : List Entry) (h : ℤ) (x : Entry)
    (hs : lookupH seen h = some x) : x.height = h := by
  have := List.find?_some hs
  simpa using this

/-- A successful `lookupH` returns a member of the list. -/
theorem lookupH_mem (seen : List Entry) (h : ℤ) (x : Entry)
    (hs : lookupH seen h = some x) : x ∈ seen :=
  List.mem_of_find?_eq_some hs

/-- Unfolding `step` when the height is fresh. -/
theorem step_eq_none (seen : List Entry) (e : Entry)
    (hl : lookupH seen e.height = none) : step seen e = seen ++ [e] := by
  unfold step
  rw [hl]

/-- Unfolding `step` when the height is already stored. -/
theorem step_eq_some (seen : List Entry) (e old : Entry)
    (hl : lookupH seen e.height = some old) :
    step seen e =
      if old.tbr < e.tbr then
        seen.map (fun x => if x.height = e.height then e else x)
      else seen := by
  unfold step
  rw [hl]

/-- Update `step` leaves lookups at other heights unchanged. -/
theorem lookupH_step_ne (seen : List Entry) (e : Entry) (h : ℤ) (hne : h ≠ e.height) :
    lookupH (step seen e) h = lookupH seen h := by
  cases hl : lookupH seen e.height with
  | none =>
    rw [step_eq_none _ _ hl]
    cases hs : lookupH seen h with
    | none => rw [lookupH_append_of_none _ _ _ hs, if_neg (fun hh => hne hh.symm)]
    | some x => rw [lookupH_append_of_some _ _ _ _ hs]
  | some old =>
    rw [step_eq_some _ _ _ hl]
    by_cases htb : old.tbr < e.tbr
    · rw [if_pos htb, lookupH_map_height_inv _ (replace_height_inv e)]
      cases hs : lookupH seen h with
      | none => rfl
      | some x =>
        have hxh : x.height = h := lookupH_height _ _ _ hs
        rw [Option.map_some']
        rw [if_neg (by rw [hxh]; exact hne)]
    · rw [if_neg htb]

/-- Update `step` at the height of a fresh entry stores that entry. -/
theorem lookupH_step_self_none (seen : List Entry) (e : Entry)
    (hl : lookupH seen e.height = none) :
    lookupH (step seen e) e.height = some e := by
  rw [step_eq_none _ _ hl, lookupH_append_of_none _ _ _ hl, if_pos rfl]

/-- Update `step` at an already stored height replaces the stored entry exactly on a
strictly greater bitrate. -/
theorem lookupH_step_self_some (seen : List Entry) (e old : Entry)
    (hl : lookupH seen e.height = some old) :
    lookupH (step seen e) e.height = if old.tbr < e.tbr then some e else some old := by
  rw [step_eq_some _ _ _ hl]
  by_cases htb : old.tbr < e.tbr
  · rw [if_pos htb, if_pos htb, lookupH_map_height_inv _ (replace_height_inv e), hl]
    have hoh : old.height = e.height := lookupH_height _ _ _ hl
    rw [Option.map_some']
    rw [if_pos hoh]
  · rw [if_neg htb, if_neg htb, hl]

/-- The effect of `step` on the stored height list: unchanged when the height
was already present, appended otherwise. -/
theorem step_heightsList (seen : List Entry) (e : Entry) :
    (step seen e).map Entry.height = seen.map Entry.height ∨
    ((step seen e).map Entry.height = seen.map Entry.height ++ [e.height] ∧
      e.height ∉ seen.map Entry.height) := by
  cases hl : lookupH seen e.height with
  | none =>
    right
    refine ⟨by rw [step_eq_none _ _ hl]; simp, ?_⟩
    intro hmem
    obtain ⟨x, hx, hxh⟩ := List.mem_map.1 hmem
    have hne : lookupH seen e.height ≠ none := by
      unfold lookupH
      rw [Ne, List.find?_eq_none]
      push_neg
      exact ⟨x, hx, by simp [hxh]⟩
    exact hne hl
  | some old =>
    left
    rw [step_eq_some _ _ _ hl]
    by_cases htb : old.tbr < e.tbr
    · rw [if_pos htb, List.map_map]
      exact List.map_congr_left (fun a _ => replace_height_inv e a)
    · rw [if_neg htb]

/-- Update `step` preserves distinctness of the stored heights. -/
theorem step_nodup (seen : List Entry) (e : Entry)
    (h : (seen.map Entry.height).Nodup) : ((step seen e).map Entry.height).Nodup := by
  rcases step_heightsList seen e with heq | ⟨heq, hnm⟩
  · rw [heq]; exact h
  · rw [heq]
    rw [List.nodup_append]
    refine ⟨h, List.nodup_singleton _, ?_⟩
    intro a ha hb
    rw [List.mem_singleton] at hb
    subst hb
    exact hnm ha

/-- The heights stored in `seen_res` are pairwise distinct. -/
theorem seenOf_heights_nodup (cs : List FormatCandidate) (d : ℚ) :
    ((seenOf cs d).map Entry.height).Nodup := by
  suffices h : ∀ acc : List Entry, (acc.map Entry.height).Nodup →
      ((cs.foldl (stepQ d) acc).map Entry.height).Nodup from h [] (by simp)
  induction cs with
  | nil => intro acc h; simpa using h
  | cons c t ih =>
    intro acc h
    rw [List.foldl_cons]
    apply ih
    unfold stepQ
    by_cases hq : qualifies c
    · rw [if_pos hq]; exact step_nodup _ _ h
    · rw [if_neg hq]; exact h

/-- A height present in the stored list can be looked up. -/
theorem lookupH_mem_heights (seen : List Entry) (h : ℤ)
    (hm : h ∈ seen.map Entry.height) : ∃ e, lookupH seen h = some e ∧ e.height = h := by
  induction seen with
  | nil => simp at hm
  | cons a t ih =>
    rw [lookupH_cons]
    by_cases hc : a.height = h
    · exact ⟨a, by rw [if_pos hc], hc⟩
    · rw [if_neg hc]
      apply ih
      rw [List.map_cons, List.mem_cons] at hm
      rcases hm with hm | hm
      · exact absurd hm.symm hc
      · exact hm

/-- With distinct heights, a stored entry is found by its own height. -/
theorem lookupH_of_mem_nodup (seen : List Entry) (e : Entry)
    (hnd : (seen.map Entry.height).Nodup) (hm : e ∈ seen) :
    lookupH seen e.height = some e := by
  induction seen with
  | nil => simp at hm
  | cons a t ih =>
    rw [lookupH_cons]
    rcases List.mem_cons.1 hm with rfl | hm2
    · rw [if_pos rfl]
    · by_cases hc : a.height = e.height
      · exfalso
        have hmem : e.height ∈ t.map Entry.height := List.mem_map.2 ⟨e, hm2, rfl⟩
        rw [List.map_cons, List.nodup_cons] at hnd
        exact hnd.1 (hc ▸ hmem)
      · rw [if_neg hc]
        apply ih _ hm2
        rw [List.map_cons, List.nodup_cons] at hnd
        exact hnd.2

/-- Sorting with `sortDesc` permutes the input. -/
theorem sortDesc_perm (l : List ℤ) : List.Perm (sortDesc l) l :=
  (List.reverse_perm _).trans (List.perm_insertionSort _ l)

/-- On distinct heights, `sortDesc` is strictly decreasing. -/
theorem sortDesc_pairwise_gt (l : List ℤ) (hnd : l.Nodup) :
    (sortDesc l).Pairwise (fun a b => b < a) := by
  have hs : (List.insertionSort (fun a b : ℤ => a ≤ b) l).Sorted (fun a b => a ≤ b) :=
    List.sorted_insertionSort _ l
  have hnd2 : (List.insertionSort (fun a b : ℤ => a ≤ b) l).Nodup :=
    ((List.perm_insertionSort _ l).nodup_iff).2 hnd
  have hlt : (List.insertionSort (fun a b : ℤ => a ≤ b) l).Pairwise (fun a b => a < b) :=
    (hs.and hnd2).imp (fun hab => lt_of_le_of_ne hab.1 hab.2)
  unfold sortDesc
  rw [List.pairwise_reverse]
  exact hlt

/-- Collecting the heights of the emitted video offers gives back the height
list they were generated from. -/
theorem offers_heightsList (seen : List Entry) (hs : List ℤ)
    (hmem : ∀ h ∈ hs, h ∈ seen.map Entry.height) :
    (hs.filterMap (fun h => (lookupH seen h).map videoOffer)).filterMap
      MediaOffer.height = hs := by
  induction hs with
  | nil => rfl
  | cons h t ih =>
    obtain ⟨e, he, heh⟩ := lookupH_mem_heights seen h (hmem h (List.mem_cons_self _ _))
    rw [List.filterMap_cons, he, Option.map_some', List.filterMap_cons]
    have hvh : (videoOffer e).height = some h := by rw [← heh]; rfl
    rw [hvh]
    rw [ih (fun x hx => hmem x (List.mem_cons_of_mem _ hx))]

/-- Every emitted video offer has type "video" and a present height. -/
theorem offersOf_members (seen : List Entry) (o : MediaOffer)
    (ho : o ∈ offersOf seen) : o.type = "video" ∧ o.height ≠ none := by
  obtain ⟨h, hh, heq⟩ := List.mem_filterMap.1 ho
  cases hl : lookupH seen h with
  | none => rw [hl] at heq; cases heq
  | some e =>
    rw [hl, Option.map_some'] at heq
    cases heq
    exact ⟨rfl, by simp [videoOffer]⟩

/-- The heights of the emitted video offers, in order: the descending sort of
the stored heights. -/
theorem offersOf_heights (seen : List Entry) :
    (offersOf seen).filterMap MediaOffer.height = sortDesc (seen.map Entry.height) := by
  unfold offersOf
  exact offers_heightsList seen _ (fun h hh => (sortDesc_perm _).mem_iff.1 hh)

/-- Structure of the full offer list: reduced video offers, then the audio
offer; video offers typed "video" with present, strictly descending heights. -/
theorem reduce_shape (cs : List FormatCandidate) (d : ℚ) :
    reduce cs d = offersOf (seenOf cs d) ++ [audioOffer d] ∧
    (∀ o ∈ offersOf (seenOf cs d), o.type = "video" ∧ o.height ≠ none) ∧
    ((offersOf (seenOf cs d)).filterMap MediaOffer.height).Pairwise
      (fun a b => b < a) := by
  refine ⟨rfl, fun o ho => offersOf_members _ o ho, ?_⟩
  rw [offersOf_heights]
  exact sortDesc_pairwise_gt _ (seenOf_heights_nodup cs d)

/-- Evaluation of `pickFirstMax` over a list extended by one entry. -/
theorem pickFirstMax_append_one (l : List Entry) (e : Entry) :
    pickFirstMax (l ++ [e]) =
      match pickFirstMax l with
      | none => some e
      | some r => some (if r.tbr < e.tbr then e else r) := by
  cases l with
  | nil => rfl
  | cons x xs =>
    show some ((xs ++ [e]).foldl (fun b a => if b.tbr < a.tbr then a else b) x) = _
    rw [List.foldl_append]
    rfl

/-- Appending one candidate extends `entriesAt` by its entry exactly when it
qualifies at the given height. -/
theorem entriesAt_append_one (cs : List FormatCandidate) (c : FormatCandidate)
    (d : ℚ) (h : ℤ) :
    entriesAt (cs ++ [c]) d h =
      entriesAt cs d h ++
        if qualifies c ∧ (candEntry d c).height = h then [candEntry d c] else [] := by
  unfold entriesAt
  rw [List.filter_append, List.map_append, List.filter_append]
  congr 1
  by_cases hq : qualifies c
  · by_cases hh : (candEntry d c).height = h
    · rw [if_pos ⟨hq, hh⟩]
      simp [hq, hh]
    · rw [if_neg (fun hc => hh hc.2)]
      simp [hq, hh]
  · rw [if_neg (fun hc => hq hc.1)]
    simp [hq]

/-- The loop's fold over an extended candidate list is one more `stepQ`. -/
theorem seenOf_append_one (cs : List FormatCandidate) (c : FormatCandidate) (d : ℚ) :
    seenOf (cs ++ [c]) d = stepQ d (seenOf cs d) c := by
  unfold seenOf
  rw [List.foldl_append]
  rfl

/-- The stored entry for each height is exactly the first-maximal entry of
that height's qualifying candidates, in candidate order. -/
theorem seen_lookup_eq (d : ℚ) (h : ℤ) (cs : List FormatCandidate) :
    lookupH (seenOf cs d) h = pickFirstMax (entriesAt cs d h) := by
  induction cs using List.reverseRecOn with
  | nil => rfl
  | append_singleton cs c ih =>
    rw [seenOf_append_one, entriesAt_append_one]
    unfold stepQ
    by_cases hq : qualifies c
    · rw [if_pos hq]
      by_cases hh : (candEntry d c).height = h
      · subst hh
        rw [if_pos ⟨hq, rfl⟩, pickFirstMax_append_one, ← ih]
        cases hl : lookupH (seenOf cs d) (candEntry d c).height with
        | none => rw [lookupH_step_self_none _ _ hl]
        | some old =>
          rw [lookupH_step_self_some _ _ _ hl]
          show (if old.tbr < (candEntry d c).tbr then some (candEntry d c) else some old) =
            some (if old.tbr < (candEntry d c).tbr then candEntry d c else old)
          by_cases htb : old.tbr < (candEntry d c).tbr
          · rw [if_pos htb, if_pos htb]
          · rw [if_neg htb, if_neg htb]
      · rw [if_neg (fun hc => hh hc.2), List.append_nil,
          lookupH_step_ne _ _ _ (fun hc => hh hc.symm)]
        exact ih
    · rw [if_neg hq, if_neg (fun hc => hq hc.1), List.append_nil]
      exact ih

/-- C1: for every candidate list and duration, the produced offer list has at
most one video offer per distinct height (their present heights are pairwise
distinct, strictly descending), and ends with exactly one always-present
audio offer: every offer before the last is a video offer. -/
theorem C1_offer_list_shape (cs : List FormatCandidate) (d : ℚ) :
    ∃ vs a, reduce cs d = vs ++ [a] ∧ a.type = "audio" ∧
      (∀ o ∈ vs, o.type = "video") ∧
      (∀ o ∈ vs, o.height ≠ none) ∧
      (vs.filterMap MediaOffer.height).Pairwise (fun x y => y < x) := by
  obtain ⟨hs, hmem, hpair⟩ := reduce_shape cs d
  exact ⟨offersOf (seenOf cs d), audioOffer d, hs, rfl,
    fun o ho => (hmem o ho).1, fun o ho => (hmem o ho).2, hpair⟩

/-- C2: the reducer keeps an entry for a height exactly when a qualifying
candidate with that height exists, and the kept entry is the first one of
maximal bitrate: all same-height entries before it have strictly smaller
bitrate (first-seen wins exact ties) and none anywhere has a greater one;
missing or zero bitrates enter as 0 through `candEntry`. -/
theorem C2_keeps_first_max (cs : List FormatCandidate) (d : ℚ) (h : ℤ) :
    (lookupH (seenOf cs d) h = none ↔ entriesAt cs d h = []) ∧
    ∀ e, lookupH (seenOf cs d) h = some e →
      ∃ l₁ l₂, entriesAt cs d h = l₁ ++ e :: l₂ ∧
        (∀ x ∈ l₁, x.tbr < e.tbr) ∧ ∀ x ∈ entriesAt cs d h, x.tbr ≤ e.tbr := by
  constructor
  · rw [seen_lookup_eq]
    cases hent : entriesAt cs d h with
    | nil => simp [pickFirstMax]
    | cons x xs => simp [pickFirstMax]
  · intro e he
    rw [seen_lookup_eq] at he
    cases hent : entriesAt cs d h with
    | nil => rw [hent] at he; cases he
    | cons x xs =>
      rw [hent] at he
      unfold pickFirstMax at he
      injection he with he
      obtain ⟨l₁, l₂, hsplit, hpre, hall⟩ := pyfold_max_first Entry.tbr xs x e he
      exact ⟨l₁, l₂, hsplit, hpre, hall⟩

/-- C2 witness: of two qualifying 1080p candidates with bitrates 3000 and
5000, the reducer keeps exactly the 5000 one. -/
theorem C2_keeps_first_max_witness :
    lookupH (seenOf [cw1, cw2] 0) 1080 = some ew2 ∧
    ∃ l₁ l₂, entriesAt [cw1, cw2] 0 1080 = l₁ ++ ew2 :: l₂ ∧
      (∀ x ∈ l₁, x.tbr < ew2.tbr) ∧ ∀ x ∈ entriesAt [cw1, cw2] 0 1080, x.tbr ≤ ew2.tbr :=
  ⟨by decide, (C2_keeps_first_max [cw1, cw2] 0 1080).2 ew2 (by decide)⟩

/-- A candidate the loop admits also satisfies the specification's wording of
the qualification condition. -/
theorem qualifies_claim (f : FormatCandidate) (h : qualifies f = true) :
    claimQualifies f := by
  unfold qualifies at h
  simp only [Bool.and_eq_true, decide_eq_true_eq] at h
  obtain ⟨⟨⟨⟨hv, hvn⟩, ha⟩, han⟩, hh⟩ := h
  refine ⟨?_, hvn, ?_, han, ?_⟩
  · intro hnone
    rw [hnone] at hv
    exact absurd hv (by decide)
  · intro hnone
    rw [hnone] at ha
    exact absurd ha (by decide)
  · intro hnone
    rw [hnone] at hh
    exact hh rfl

/-- C3: a candidate failing the condition (both codecs present and not the
literal "none", height present) yields no offer at all: removing it from the
input leaves the entire offer list unchanged. -/
theorem C3_excluded_no_offer (d : ℚ) (cs₁ cs₂ : List FormatCandidate)
    (f : FormatCandidate) (hf : ¬ claimQualifies f) :
    reduce (cs₁ ++ f :: cs₂) d = reduce (cs₁ ++ cs₂) d := by
  have hq : qualifies f = false := by
    cases hqf : qualifies f
    · rfl
    · exact absurd (qualifies_claim f hqf) hf
  have hseen : seenOf (cs₁ ++ f :: cs₂) d = seenOf (cs₁ ++ cs₂) d := by
    unfold seenOf
    rw [List.foldl_append, List.foldl_append, List.foldl_cons]
    congr 1
    simp [stepQ, hq]
  unfold reduce offersOf
  rw [hseen]

/-- C3 witness: a candidate with `vcodec="none"` and height 720 contributes
nothing next to an empty list. -/
theorem C3_excluded_no_offer_witness : reduce [fbad] 0 = reduce [] 0 :=
  C3_excluded_no_offer 0 [] [] fbad (fun hc => hc.2.1 rfl)

/-- Unfolding `format_size` on a present byte count. -/
theorem format_size_some (n : ℤ) :
    format_size (some n) =
      if n = 0 ∨ n ≤ 0 then none
      else if 1024 * 1024 * 1024 ≤ n then
        some (fmt1 ((n : ℚ) / (1024 * 1024 * 1024)) ++ " GB")
      else if 1024 * 1024 ≤ n then some (fmt1 ((n : ℚ) / (1024 * 1024)) ++ " MB")
      else if 1024 ≤ n then some (fmt1 ((n : ℚ) / 1024) ++ " KB")
      else some (toString n ++ " B") := rfl

/-- Unfolding `estimate_video_size` on a present duration. -/
theorem estimate_video_size_some (d : ℚ) (height : Option ℤ) (tbr : Option ℚ) :
    estimate_video_size (some d) height tbr =
      if d = 0 then Except.ok none
      else if 0 < tbr.getD 0 then
        Except.ok (some (pytrunc (tbr.getD 0 * 1000 / 8 * d)))
      else
        match height with
        | none => Except.error ()
        | some h => Except.ok (some (pytrunc (tableBitrate h * 1000 / 8 * d))) := rfl

/-- Unfolding `estimate_video_size` on present duration and height. -/
theorem estimate_some_some (d : ℚ) (h : ℤ) (tbr : Option ℚ) :
    estimate_video_size (some d) (some h) tbr =
      if d = 0 then Except.ok none
      else if 0 < tbr.getD 0 then
        Except.ok (some (pytrunc (tbr.getD 0 * 1000 / 8 * d)))
      else Except.ok (some (pytrunc (tableBitrate h * 1000 / 8 * d))) := by
  rw [estimate_video_size_some]

/-- Unfolding `pyMinKey` on a nonempty list. -/
theorem pyMinKey_cons (key : ℤ → ℤ) (x : ℤ) (xs : List ℤ) :
    pyMinKey key (x :: xs) =
      some (xs.foldl (fun b a => if key a < key b then a else b) x) := rfl

/-- The key list of the bitrate table, spelled out. -/
theorem bm_keys_eq : bm_keys = [2160, 1440, 1080, 720, 480, 360, 240, 144] := rfl

/-- Selection `closestKey` as an explicit fold over the tail of the key list. -/
theorem closestKey_eq (h : ℤ) :
    closestKey h = [1440, 1080, 720, 480, 360, 240, 144].foldl
      (fun b a => if |a - h| < |b - h| then a else b) 2160 := by
  unfold closestKey
  rw [bm_keys_eq, pyMinKey_cons, Option.getD_some]

/-- A string with a nonempty suffix appended is nonempty. -/
theorem append_ne_empty (a b : String) (hb : b.data ≠ []) : a ++ b ≠ "" := by
  intro h
  apply hb
  have hdata : a.data ++ b.data = [] := congrArg String.data h
  exact (List.append_eq_nil.mp hdata).2

/-- The formatter never produces the empty string, so the code's `or`
fallback fires exactly when the formatter yields nothing. -/
theorem format_size_ne_empty (b : Option ℤ) (s : String)
    (h : format_size b = some s) : s ≠ "" := by
  cases b with
  | none => cases h
  | some n =>
    rw [format_size_some] at h
    by_cases h0 : n = 0 ∨ n ≤ 0
    · rw [if_pos h0] at h; cases h
    · rw [if_neg h0] at h
      split_ifs at h
      all_goals (injection h with h2; rw [← h2]; exact append_ne_empty _ _ (by decide))

/-- C4 (amended): the byte size kept for a candidate follows the truthiness
chain — `filesize` when present and nonzero, else `filesize_approx` when
present and nonzero, else the estimator when the duration is positive, else
the falsy leftover — and every video offer displays the formatted byte size,
falling back to "~{height}p" exactly when the formatter yields nothing. -/
theorem C4_resolution (d : ℚ) (f : FormatCandidate) (e : Entry) :
    (candEntry d f).filesize = resolveAmended d f ∧
    (videoOffer e).size = some (match format_size e.filesize with
      | some s => s
      | none => "~" ++ toString e.height ++ "p") := by
  constructor
  · unfold candEntry resolveAmended pyorInt
    cases hfe : f.filesize with
    | none =>
      cases hfa : f.filesize_approx with
      | none => simp
      | some m =>
        by_cases hm : m = 0
        · subst hm; simp
        · simp [hm]
    | some n =>
      by_cases hn : n = 0
      · subst hn
        cases hfa : f.filesize_approx with
        | none => simp
        | some m =>
          by_cases hm : m = 0
          · subst hm; simp
          · simp [hm]
      · simp [hn]
  · show some (pyorStr (format_size e.filesize) ("~" ++ toString e.height ++ "p")) =
      some (match format_size e.filesize with
        | some s => s
        | none => "~" ++ toString e.height ++ "p")
    cases hfs : format_size e.filesize with
    | none => rfl
    | some s =>
      have hne := format_size_ne_empty _ _ hfs
      show some (if s = "" then "~" ++ toString e.height ++ "p" else s) = some s
      rw [if_neg hne]

/-- C4 counterexample: with a present zero `filesize` and `filesize_approx`
1536, the code resolves 1536 bytes while the claim's presence-based chain
resolves 0, so the claim's resolution rule does not match the code. -/
theorem C4_resolution_cex :
    (candEntry 7 fcex).filesize = some 1536 ∧ resolveClaim 7 fcex = some 0 ∧
    (candEntry 7 fcex).filesize ≠ resolveClaim 7 fcex := by decide

/-- C5: for a positive duration and non-positive (or absent) bitrate, the
estimator consults the table at the resolution minimizing the absolute
distance to the height; exact ties resolve to the earlier entry of the
descending declaration order, hence the higher resolution; height 1000
selects 1080. -/
theorem C5_closest_table (d : ℚ) (hd : 0 < d) (tbr : Option ℚ)
    (ht : tbr.getD 0 ≤ 0) (h : ℤ) :
    estimate_video_size (some d) (some h) tbr =
      Except.ok (some (pytrunc (tableBitrate h * 1000 / 8 * d))) ∧
    closestKey h ∈ bm_keys ∧
    (∀ k ∈ bm_keys, |closestKey h - h| ≤ |k - h|) ∧
    (∀ k ∈ bm_keys, |k - h| = |closestKey h - h| → k ≤ closestKey h) ∧
    closestKey 1000 = 1080 := by
  have hd0 : d ≠ 0 := ne_of_gt hd
  have htb : ¬ 0 < tbr.getD 0 := not_lt.2 ht
  obtain ⟨l₁, l₂, hsplit, hpre, hall⟩ :=
    pyfold_min_first (fun x => |x - h|) [1440, 1080, 720, 480, 360, 240, 144]
      2160 (closestKey h) (closestKey_eq h).symm
  have hsplit2 : bm_keys = l₁ ++ closestKey h :: l₂ := hsplit
  have hdesc : bm_keys.Pairwise (fun a b => b < a) := by decide
  refine ⟨?_, ?_, ?_, ?_, by decide⟩
  · rw [estimate_some_some, if_neg hd0, if_neg htb]
  · rw [hsplit2]
    exact List.mem_append.2 (Or.inr (List.mem_cons_self _ _))
  · exact fun k hk => hall k hk
  · intro k hk heq
    rw [hsplit2] at hdesc
    have hk2 : k ∈ l₁ ++ closestKey h :: l₂ := hsplit2 ▸ hk
    rcases List.mem_append.1 hk2 with hk1 | hk3
    · exact absurd heq.symm (ne_of_lt (hpre k hk1))
    · rcases List.mem_cons.1 hk3 with rfl | hk4
      · exact le_refl _
      · exact le_of_lt (List.rel_of_pairwise_cons (List.pairwise_append.1 hdesc).2.1 hk4)

/-- C5 witness: the estimator at duration 100, height 1000, bitrate 0 takes
the table path and the chosen resolution is 1080. -/
theorem C5_closest_table_witness :
    estimate_video_size (some 100) (some 1000) (some 0) =
      Except.ok (some (pytrunc (tableBitrate 1000 * 1000 / 8 * 100))) ∧
    closestKey 1000 = 1080 :=
  ⟨(C5_closest_table 100 (by decide) (some 0) (by decide) 1000).1,
   (C5_closest_table 100 (by decide) (some 0) (by decide) 1000).2.2.2.2⟩

/-- C6 (amended): the estimator truncates toward zero, as Python's `int()`
does, rather than rounding: the bitrate branch yields
`int(tbr * 1000 / 8 * duration)`, the table branch
`int(bitrate * 1000 / 8 * duration)`; the example value 62,500,000 at
duration 100, height 1080, bitrate 0 holds because that division is exact. -/
theorem C6_truncated_formula (d : ℚ) (hd : 0 < d) (tbr : Option ℚ) (h : ℤ) :
    (0 < tbr.getD 0 → estimate_video_size (some d) (some h) tbr =
      Except.ok (some (pytrunc (tbr.getD 0 * 1000 / 8 * d)))) ∧
    (tbr.getD 0 ≤ 0 → estimate_video_size (some d) (some h) tbr =
      Except.ok (some (pytrunc (tableBitrate h * 1000 / 8 * d)))) ∧
    estimate_video_size (some 100) (some 1080) (some 0) =
      Except.ok (some 62500000) := by
  have hd0 : d ≠ 0 := ne_of_gt hd
  refine ⟨?_, ?_, by decide⟩
  · intro htb
    rw [estimate_some_some, if_neg hd0, if_pos htb]
  · intro htb
    rw [estimate_some_some, if_neg hd0, if_neg (not_lt.2 htb)]

/-- C6 witness: the golden value of the table branch. -/
theorem C6_truncated_formula_witness :
    estimate_video_size (some 100) (some 1080) (some 0) =
      Except.ok (some 62500000) :=
  (C6_truncated_formula 100 (by decide) (some 0) 1080).2.2

/-- C6 counterexample: at duration 1 and bitrate 0.007 kbps the code returns
`int(0.875) = 0`, not `round(0.875) = 1` as the claim's formula demands. -/
theorem C6_round_cex :
    estimate_video_size (some 1) (some 1080) (some (7 / 1000)) ≠
      Except.ok (some (pyround (7 / 1000 * 1000 / 8 * 1))) ∧
    estimate_video_size (some 1) (some 1080) (some (7 / 1000)) =
      Except.ok (some 0) ∧
    pyround (7 / 1000 * 1000 / 8 * 1) = 1 := by decide

/-- C7 (amended): the estimator returns an absent result exactly for an
absent or zero duration — a negative duration is not caught by the falsy
test and produces a computed value — and it raises exactly when the duration
is present and nonzero, the bitrate is not positive, and the height is
absent. -/
theorem C7_absence (duration : Option ℚ) (height : Option ℤ) (tbr : Option ℚ) :
    (estimate_video_size duration height tbr = Except.ok none ↔
      duration = none ∨ duration = some 0) ∧
    (estimate_video_size duration height tbr = Except.error () ↔
      duration ≠ none ∧ duration ≠ some 0 ∧ ¬ 0 < tbr.getD 0 ∧ height = none) := by
  cases duration with
  | none => simp [estimate_video_size]
  | some dv =>
    by_cases hdv : dv = 0
    · subst hdv
      simp [estimate_video_size]
    · by_cases htb : 0 < tbr.getD 0
      · cases height with
        | none => simp [estimate_video_size, hdv, htb]
        | some hv => simp [estimate_video_size, hdv, htb]
      · cases height with
        | none => simp [estimate_video_size, hdv, htb]
        | some hv => simp [estimate_video_size, hdv, htb]

/-- C7 counterexample: a negative duration yields a computed negative
estimate, not absence, and an absent height with absent bitrate raises. -/
theorem C7_absence_cex :
    estimate_video_size (some (-5)) (some 1080) (some 1000) =
      Except.ok (some (-625000)) ∧
    estimate_video_size (some 10) none none = Except.error () := by decide

/-- C8: the formatter yields nothing for absent or non-positive input; a
positive byte count is rendered with one decimal at binary thresholds,
largest unit first, and as an exact integer below 1 KiB; the four golden
values hold. -/
theorem C8_formatter (n : ℤ) :
    format_size none = none ∧
    (n ≤ 0 → format_size (some n) = none) ∧
    (0 < n → format_size (some n) = some (
      if 2 ^ 30 ≤ n then fmt1 ((n : ℚ) / 2 ^ 30) ++ " GB"
      else if 2 ^ 20 ≤ n then fmt1 ((n : ℚ) / 2 ^ 20) ++ " MB"
      else if 2 ^ 10 ≤ n then fmt1 ((n : ℚ) / 2 ^ 10) ++ " KB"
      else toString n ++ " B")) ∧
    format_size (some 500) = some "500 B" ∧
    format_size (some 1536) = some "1.5 KB" ∧
    format_size (some 1572864) = some "1.5 MB" ∧
    format_size (some 1610612736) = some "1.5 GB" := by
  refine ⟨rfl, ?_, ?_, by decide, by decide, by decide, by decide⟩
  · intro hn
    rw [format_size_some, if_pos (Or.inr hn)]
  · intro hn
    rw [format_size_some, if_neg (by push_neg; exact ⟨ne_of_gt hn, hn⟩)]
    norm_num
    split_ifs <;> rfl

/-- C8 witness: a negative input yields nothing; 500 bytes format exactly. -/
theorem C8_formatter_witness :
    format_size (some (-3)) = none ∧ format_size (some 500) = some "500 B" :=
  ⟨(C8_formatter (-3)).2.1 (by decide), (C8_formatter 500).2.2.2.1⟩

/-- C9: the audio offer is always appended last after only video offers, with
format identifier "bestaudio"; for a positive duration its size display is
the formatter applied to exactly the byte count the estimator's bitrate
branch computes at 192 kbps; otherwise it is the fixed string
"High Quality". -/
theorem C9_audio_offer (cs : List FormatCandidate) (d : ℚ) :
    (∃ vs, reduce cs d = vs ++ [audioOffer d] ∧ ∀ o ∈ vs, o.type = "video") ∧
    (audioOffer d).format_id = some "bestaudio" ∧
    (0 < d → ∃ n : ℤ, estimate_video_size (some d) none (some 192) =
      Except.ok (some n) ∧ (audioOffer d).size = format_size (some n)) ∧
    (¬ 0 < d → (audioOffer d).size = some "High Quality") := by
  obtain ⟨hs, hmem, hdesc⟩ := reduce_shape cs d
  refine ⟨⟨offersOf (seenOf cs d), hs, fun o ho => (hmem o ho).1⟩, rfl, ?_, ?_⟩
  · intro hd
    refine ⟨pytrunc (192 * 1000 / 8 * d), ?_, ?_⟩
    · rw [estimate_video_size_some, if_neg (ne_of_gt hd),
        if_pos (show (0 : ℚ) < (some (192 : ℚ)).getD 0 by decide)]
      rfl
    · show (if 0 < d then format_size (some (pytrunc (192 * 1000 / 8 * d)))
        else some "High Quality") = _
      rw [if_pos hd]
  · intro hd
    show (if 0 < d then format_size (some (pytrunc (192 * 1000 / 8 * d)))
      else some "High Quality") = _
    rw [if_neg hd]

/-- C9 witness: at duration 100 the audio size display is the formatted
estimator output; at duration 0 it is "High Quality". -/
theorem C9_audio_offer_witness :
    (∃ n : ℤ, estimate_video_size (some 100) none (some 192) =
      Except.ok (some n) ∧ (audioOffer 100).size = format_size (some n)) ∧
    (audioOffer 0).size = some "High Quality" :=
  ⟨(C9_audio_offer [] 100).2.2.1 (by decide), (C9_audio_offer [] 0).2.2.2 (by decide)⟩

/-- C10: the sanitized filename is at most 100 characters, contains none of
the nine reserved characters, and is a leading segment of the filename the
download handler returns. -/
theorem C10_sanitize_bound (s ext : List Char) :
    (sanitize_filename s).length ≤ 100 ∧
    (∀ c ∈ sanitize_filename s, invalidChars.contains c = false) ∧
    ∃ t, download_filename s ext = sanitize_filename s ++ t := by
  refine ⟨?_, ?_, ext, rfl⟩
  · unfold sanitize_filename
    rw [List.length_take]
    exact min_le_left _ _
  · intro c hc
    unfold sanitize_filename at hc
    have hc2 := List.take_subset _ _ hc
    rw [List.mem_filter] at hc2
    have hc3 := hc2.2
    simpa using hc3
